import Mathlib

/-!
Shallow embedding of `tensorflow_federated/python/core/impl/func_utils.py`.

Python objects are modelled by an abstract carrier `Obj`.  The external
collaborators of the file (the structural type system `types.to_type`,
`type_utils.infer_type`, `Type.is_assignable_from`, and the element
introspection of `types.NamedTupleType`) are bundled in a structure `Ext`
over which every definition is parameterised; a `TypeError` raised by a
collaborator is an `Except.error`.  Python dictionaries are modelled as
insertion-ordered association lists with in-place update.
-/

set_option autoImplicit false

namespace FuncUtils

universe u v

instance {ε : Type u} {α : Type v} [DecidableEq ε] [DecidableEq α] :
    DecidableEq (Except ε α) := fun x y =>
  match x, y with
  | Except.ok a, Except.ok b =>
      if h : a = b then isTrue (by rw [h])
      else isFalse (by intro hc; cases hc; exact h rfl)
  | Except.ok _, Except.error _ => isFalse (by intro hc; cases hc)
  | Except.error _, Except.ok _ => isFalse (by intro hc; cases hc)
  | Except.error e, Except.error f =>
      if h : e = f then isTrue (by rw [h])
      else isFalse (by intro hc; cases hc; exact h rfl)

/-- Python truthiness of an element name: both `None` and the empty string
are falsy, every non-empty string is truthy (source tests `if element[0]:`). -/
def truthyName : Option String → Bool
  | none => false
  | some s => !(s.isEmpty)

/-- Lookup in a Python-dict model (association list, first matching key). -/
def dictGet {β : Type v} : List (String × β) → String → Option β
  | [], _ => none
  | (k, v) :: rest, k0 => if k = k0 then some v else dictGet rest k0

/-- `d[k] = v` on the Python-dict model: update in place when the key is
present, append otherwise (insertion order preserved). -/
def dictSet {β : Type v} : List (String × β) → String → β → List (String × β)
  | [], k0, v0 => [(k0, v0)]
  | (k, v) :: rest, k0, v0 =>
      if k = k0 then (k, v0) :: rest else (k, v) :: dictSet rest k0 v0

/-- `k in d` on the Python-dict model. -/
def dictContains {β : Type v} (d : List (String × β)) (k : String) : Bool :=
  (dictGet d k).isSome

/-- The external collaborators of `func_utils.py` (the structural type system
and value-type inference), together with the distinguished object `None`.
A raising call is an `Except.error`. -/
structure Ext (Obj : Type u) where
  to_type : Obj → Except Unit Obj
  infer_type : Obj → Except Unit Obj
  assignable : Obj → Obj → Bool
  elements : Obj → Option (List (Option String × Obj))
  pynone : Obj

/-- An input to `is_argument_tuple` / `unpack_args_from_tuple`: either an
`anonymous_tuple.AnonymousTuple` (given by its element list) or any other
object, which the source routes through `types.to_type`. -/
inductive PyVal (Obj : Type u) where
  | anon : List (Option String × Obj) → PyVal Obj
  | obj : Obj → PyVal Obj
deriving DecidableEq

/-- The single pass of `is_argument_tuple` over the element list, carrying
`idx`, `max_unnamed` and `min_named` exactly as the source loop does. -/
def scanLoop {α : Type v} : List (Option String × α) → Nat → Int → Int → Int × Int
  | [], _, mx, mn => (mx, mn)
  | e :: rest, idx, mx, mn =>
      if truthyName e.1 then scanLoop rest (idx + 1) mx (min mn (idx : Int))
      else scanLoop rest (idx + 1) (idx : Int) mn

/-- The element-level core of `is_argument_tuple`: scan for the last unnamed
index and the first named index and require `max_unnamed < min_named`. -/
def argTupleElems {α : Type v} (es : List (Option String × α)) : Bool :=
  let p := scanLoop es 0 (-1) (es.length : Int)
  p.1 < p.2

/-- `is_argument_tuple(arg)`: an `AnonymousTuple` is scanned directly; any
other object is coerced with `types.to_type` and scanned when the result is a
`NamedTupleType`, otherwise the answer is `False`. -/
def is_argument_tuple {Obj : Type u} (ext : Ext Obj) : PyVal Obj → Except Unit Bool
  | PyVal.anon es => Except.ok (argTupleElems es)
  | PyVal.obj o =>
      match ext.to_type o with
      | Except.error e => Except.error e
      | Except.ok t =>
          match ext.elements t with
          | some es => Except.ok (argTupleElems es)
          | none => Except.ok false

/-- The element loop of `unpack_args_from_tuple`: named elements go to the
keyword dict, unnamed ones are appended to the positional list. -/
def unpackLoop {α : Type v} :
    List (Option String × α) → List α × List (String × α) → List α × List (String × α)
  | [], acc => acc
  | e :: rest, acc =>
      if truthyName e.1 then unpackLoop rest (acc.1, dictSet acc.2 (e.1.getD "") e.2)
      else unpackLoop rest (acc.1 ++ [e.2], acc.2)

/-- Split an element list into `(args, kwargs)` as the source loop does. -/
def unpack_elements {α : Type v} (es : List (Option String × α)) :
    List α × List (String × α) :=
  unpackLoop es ([], [])

/-- `unpack_args_from_tuple(tuple_with_args)`: an `AnonymousTuple` is split
directly; any other object is coerced with `types.to_type` and split when the
result is a `NamedTupleType`, otherwise a `TypeError` is raised. -/
def unpack_args_from_tuple {Obj : Type u} (ext : Ext Obj) :
    PyVal Obj → Except Unit (List Obj × List (String × Obj))
  | PyVal.anon es => Except.ok (unpack_elements es)
  | PyVal.obj o =>
      match ext.to_type o with
      | Except.error e => Except.error e
      | Except.ok t =>
          match ext.elements t with
          | some es => Except.ok (unpack_elements es)
          | none => Except.error ()

/-- `pack_args_into_anonymous_tuple(*args, **kwargs)`: positional values
first with name `None`, then the keyword entries in dict order. -/
def pack_args_into_anonymous_tuple {Obj : Type u}
    (args : List Obj) (kwargs : List (String × Obj)) : PyVal Obj :=
  PyVal.anon (args.map (fun a => (none, a)) ++ kwargs.map (fun kv => (some kv.1, kv.2)))

/-- `inspect.ArgSpec`: declared names, the variadic collectors, and the
defaults for the trailing names (`[]` models Python `None`/empty). -/
structure ArgSpec (Obj : Type u) where
  args : List String
  varargs : Option String
  keywords : Option String
  defaults : List Obj

/-- A value bound in the result of `get_callargs_for_argspec`: a single
object for a declared name, the leftover-positional list for the
variadic-positional collector, the leftover-keyword dict for the
variadic-keyword collector. -/
inductive CallArg (Obj : Type u) where
  | one : Obj → CallArg Obj
  | star : List Obj → CallArg Obj
  | kwstar : List (String × Obj) → CallArg Obj
deriving DecidableEq

/-- The declared-name loop of `get_callargs_for_argspec`: positional slot
first (raising `DuplicateArgument` when the same name is also a keyword),
then the keyword dict, then the trailing-default window, else
`MissingArgument`. -/
def callargsLoop {Obj : Type u} (args : List Obj) (kwargs : List (String × Obj))
    (defaults : List Obj) (nswd : Nat) :
    List String → Nat → List (String × CallArg Obj) →
    Except Unit (List (String × CallArg Obj))
  | [], _, result => Except.ok result
  | specarg :: rest, idx, result =>
      match args[idx]? with
      | some v =>
          if dictContains kwargs specarg then Except.error ()
          else callargsLoop args kwargs defaults nswd rest (idx + 1)
            (dictSet result specarg (CallArg.one v))
      | none =>
          match dictGet kwargs specarg with
          | some v => callargsLoop args kwargs defaults nswd rest (idx + 1)
              (dictSet result specarg (CallArg.one v))
          | none =>
              if nswd ≤ idx then
                match defaults[idx - nswd]? with
                | some d => callargsLoop args kwargs defaults nswd rest (idx + 1)
                    (dictSet result specarg (CallArg.one d))
                | none => Except.error ()
              else Except.error ()

/-- `get_callargs_for_argspec(argspec, *args, **kwargs)`. -/
def get_callargs_for_argspec {Obj : Type u} (argspec : ArgSpec Obj)
    (args : List Obj) (kwargs : List (String × Obj)) :
    Except Unit (List (String × CallArg Obj)) :=
  let num_specargs := argspec.args.length
  let num_defaults := argspec.defaults.length
  let nswd := num_specargs - num_defaults
  if args.length > num_specargs ∧ argspec.varargs = none then Except.error ()
  else
    match callargsLoop args kwargs argspec.defaults nswd argspec.args 0 [] with
    | Except.error e => Except.error e
    | Except.ok result =>
        let unused_kwargs := kwargs.filter (fun kv => !(dictContains result kv.1))
        let result1 := match argspec.varargs with
          | some vn => dictSet result vn (CallArg.star (args.drop num_specargs))
          | none => result
        match argspec.keywords with
        | some kn => Except.ok (dictSet result1 kn (CallArg.kwstar unused_kwargs))
        | none =>
            if unused_kwargs.isEmpty then Except.ok result1 else Except.error ()

/-- The defaults-verification loop of `is_argspec_compatible_with_types`:
for each default that is not `None`, if the bound object is not identical to
the default, require `to_type(bound).is_assignable_from(infer_type(default))`;
collaborator faults propagate. -/
def compatLoop {Obj : Type u} [DecidableEq Obj] (ext : Ext Obj)
    (argNames : List String) (nswd : Nat) (callargs : List (String × CallArg Obj)) :
    List Obj → Nat → Except Unit Bool
  | [], _ => Except.ok true
  | d :: rest, idx =>
      if d = ext.pynone then compatLoop ext argNames nswd callargs rest (idx + 1)
      else
        match argNames[nswd + idx]? with
        | none => Except.error ()
        | some nm =>
            match dictGet callargs nm with
            | some (CallArg.one v) =>
                if v = d then compatLoop ext argNames nswd callargs rest (idx + 1)
                else
                  match ext.to_type v with
                  | Except.error e => Except.error e
                  | Except.ok t =>
                      match ext.infer_type d with
                      | Except.error e => Except.error e
                      | Except.ok dt =>
                          if ext.assignable t dt then
                            compatLoop ext argNames nswd callargs rest (idx + 1)
                          else Except.ok false
            | _ => Except.error ()

/-- `is_argspec_compatible_with_types(argspec, *args, **kwargs)`: a binding
failure is caught and yields `false`; with no defaults a successful binding
yields `true`; otherwise the defaults-verification loop runs outside the
`try` block. -/
def is_argspec_compatible_with_types {Obj : Type u} [DecidableEq Obj] (ext : Ext Obj)
    (argspec : ArgSpec Obj) (args : List Obj) (kwargs : List (String × Obj)) :
    Except Unit Bool :=
  match get_callargs_for_argspec argspec args kwargs with
  | Except.error _ => Except.ok false
  | Except.ok callargs =>
      if argspec.defaults.isEmpty then Except.ok true
      else compatLoop ext argspec.args (argspec.args.length - argspec.defaults.length)
        callargs argspec.defaults 0

/-- The failure cases of `wrap_as_zero_or_one_arg_callable`. -/
inductive WrapErr where
  | cannotAcceptAsSingleArgument : WrapErr
  | cannotAcceptAsMultipleArguments : WrapErr
  | cannotAcceptEitherForm : WrapErr
  | ambiguousUnpackingChoice : WrapErr
  | incompatibleNoParameterSignature : WrapErr
  | propagatedTypeError : WrapErr
deriving DecidableEq

/-- The shape of the callable returned by `wrap_as_zero_or_one_arg_callable`:
a zero-argument thunk, or a one-argument adapter with its resolved unpack
decision. -/
inductive WrapResult where
  | zeroArg : WrapResult
  | oneArg : Bool → WrapResult
deriving DecidableEq

/-- The `unpack_possible` computation of `wrap_as_zero_or_one_arg_callable`
(source lines 340-345): when the parameter type is an argument tuple, unpack
it and test compatibility of the parts, otherwise `false`. -/
def unpack_possible_calc {Obj : Type u} [DecidableEq Obj] (ext : Ext Obj)
    (argspec : ArgSpec Obj) (pt : Obj) : Except Unit Bool :=
  match is_argument_tuple ext (PyVal.obj pt) with
  | Except.error e => Except.error e
  | Except.ok true =>
      match unpack_args_from_tuple ext (PyVal.obj pt) with
      | Except.error e => Except.error e
      | Except.ok (ats, kts) => is_argspec_compatible_with_types ext argspec ats kts
  | Except.ok false => Except.ok false

/-- The decision procedure of `wrap_as_zero_or_one_arg_callable(func,
parameter_type, unpack)` up to the choice of adapter: which failure it raises
and, on success, whether the returned adapter is the zero-argument thunk or
the one-argument adapter and what its effective unpack decision is.
`unpack` is the three-valued knob (`some true` / `some false` / `none`). -/
def wrap_decision {Obj : Type u} [DecidableEq Obj] (ext : Ext Obj)
    (argspec : ArgSpec Obj) (parameter_type : Option Obj) (unpack : Option Bool) :
    Except WrapErr WrapResult :=
  match parameter_type with
  | none =>
      match is_argspec_compatible_with_types ext argspec [] [] with
      | Except.ok true => Except.ok WrapResult.zeroArg
      | Except.ok false => Except.error WrapErr.incompatibleNoParameterSignature
      | Except.error _ => Except.error WrapErr.propagatedTypeError
  | some pt =>
      match is_argspec_compatible_with_types ext argspec [pt] [] with
      | Except.error _ => Except.error WrapErr.propagatedTypeError
      | Except.ok compatSingle =>
          let unpack_required := !compatSingle
          if unpack_required = true ∧ unpack = some false then
            Except.error WrapErr.cannotAcceptAsSingleArgument
          else
            match unpack_possible_calc ext argspec pt with
            | Except.error _ => Except.error WrapErr.propagatedTypeError
            | Except.ok unpack_possible =>
                if unpack_possible = false ∧ unpack = some true then
                  Except.error WrapErr.cannotAcceptAsMultipleArguments
                else if unpack_required = true ∧ unpack_possible = false then
                  Except.error WrapErr.cannotAcceptEitherForm
                else if unpack_required = false ∧ unpack_possible = true ∧ unpack = none then
                  Except.error WrapErr.ambiguousUnpackingChoice
                else
                  Except.ok (WrapResult.oneArg
                    (match unpack with
                     | none => unpack_possible
                     | some b => b))

/-- One invocation of `PolymorphicFunction.__call__`, abstracted over the
inferred argument type `t`: look the key `repr(t)` up in the cache; when the
entry is missing *or falsy*, invoke the factory, store the result and use it;
otherwise use the cached entry.  The third component counts factory calls
made by this invocation. -/
def poly_step {T : Type u} {F : Type v} (factory : T → F) (isFalsy : F → Bool)
    (keyrepr : T → String) (cache : List (String × F)) (t : T) :
    List (String × F) × F × Nat :=
  let key := keyrepr t
  match dictGet cache key with
  | some fn =>
      if isFalsy fn then (dictSet cache key (factory t), factory t, 1)
      else (cache, fn, 0)
  | none => (dictSet cache key (factory t), factory t, 1)

/-- A sequence of invocations of one `PolymorphicFunction`, threading the
cache; returns the final cache and the total number of factory calls. -/
def poly_calls {T : Type u} {F : Type v} (factory : T → F) (isFalsy : F → Bool)
    (keyrepr : T → String) : List T → List (String × F) → List (String × F) × Nat
  | [], cache => (cache, 0)
  | t :: rest, cache =>
      let s := poly_step factory isFalsy keyrepr cache t
      let r := poly_calls factory isFalsy keyrepr rest s.1
      (r.1, s.2.2 + r.2)

/-! ### Basic dictionary lemmas -/

theorem dictGet_dictSet_self {β : Type v} (d : List (String × β)) (k : String) (v : β) :
    dictGet (dictSet d k v) k = some v := by
  induction d with
  | nil => simp [dictGet, dictSet]
  | cons kv rest ih =>
      by_cases h : kv.1 = k
      · simp [dictGet, dictSet, h]
      · simp [dictGet, dictSet, h, ih]

theorem dictGet_dictSet_ne {β : Type v} (d : List (String × β)) (k k0 : String) (v : β)
    (h : k ≠ k0) : dictGet (dictSet d k v) k0 = dictGet d k0 := by
  induction d with
  | nil => simp [dictGet, dictSet, h]
  | cons kv rest ih =>
      by_cases hk : kv.1 = k
      · simp only [dictSet, hk, if_pos]
        simp [dictGet, hk, h]
      · simp only [dictSet, hk, if_neg, dictGet]
        by_cases hk0 : kv.1 = k0
        · simp [hk0]
        · simp [hk0, ih]

theorem dictGet_append_ne {β : Type v} (d : List (String × β)) (k k0 : String) (v : β)
    (h : k ≠ k0) : dictGet (d ++ [(k, v)]) k0 = dictGet d k0 := by
  induction d with
  | nil => simp [dictGet, h]
  | cons kv rest ih =>
      by_cases hk : kv.1 = k0
      · simp [dictGet, hk]
      · simp [dictGet, hk, ih]

theorem dictGet_append_self {β : Type v} (d : List (String × β)) (k : String) (v : β)
    (h : dictGet d k = none) : dictGet (d ++ [(k, v)]) k = some v := by
  induction d with
  | nil => simp [dictGet]
  | cons kv rest ih =>
      by_cases hk : kv.1 = k
      · simp [dictGet, hk] at h
      · simp only [dictGet, hk] at h
        simp [dictGet, hk, ih h]

theorem dictGet_none_of_forall_ne {β : Type v} (d : List (String × β)) (k : String)
    (h : ∀ kv ∈ d, kv.1 ≠ k) : dictGet d k = none := by
  induction d with
  | nil => rfl
  | cons kv rest ih =>
      have h1 : kv.1 ≠ k := h kv (List.mem_cons_self kv rest)
      simp only [dictGet, h1, if_neg]
      exact ih (fun kv0 hm => h kv0 (List.mem_cons_of_mem kv hm))

theorem forall_ne_of_dictGet_none {β : Type v} (d : List (String × β)) (k : String)
    (h : dictGet d k = none) : ∀ kv ∈ d, kv.1 ≠ k := by
  induction d with
  | nil => intro kv hm; cases hm
  | cons kv0 rest ih =>
      intro kv hm
      by_cases hk : kv0.1 = k
      · simp [dictGet, hk] at h
      · simp only [dictGet, hk, if_neg] at h
        rcases List.mem_cons.1 hm with h1 | h1
        · rw [h1]; exact hk
        · exact ih h kv h1

theorem dictSet_eq_append {β : Type v} (d : List (String × β)) (k : String) (v : β)
    (h : dictGet d k = none) : dictSet d k v = d ++ [(k, v)] := by
  induction d with
  | nil => rfl
  | cons kv rest ih =>
      by_cases hk : kv.1 = k
      · simp [dictGet, hk] at h
      · simp only [dictGet, hk, if_neg] at h
        simp [dictSet, hk, ih h]

/-! ### Concrete external collaborators used for closed examples -/

/-- A trivial type system over `Nat`: every coercion and inference succeeds
and every type is assignable from every other; no named-tuple types. -/
def ext0 : Ext Nat :=
  { to_type := fun x => Except.ok x
    infer_type := fun x => Except.ok x
    assignable := fun _ _ => true
    elements := fun _ => none
    pynone := 0 }

/-- A type system over `Nat` whose `to_type` always raises `TypeError`. -/
def extBad : Ext Nat :=
  { to_type := fun _ => Except.error ()
    infer_type := fun x => Except.ok x
    assignable := fun _ _ => true
    elements := fun _ => none
    pynone := 0 }

/-- A type system over `Nat` in which the object `100` is a two-element
unnamed named-tuple type. -/
def ext1 : Ext Nat :=
  { to_type := fun x => Except.ok x
    infer_type := fun x => Except.ok x
    assignable := fun _ _ => true
    elements := fun x => if x = 100 then some [(none, 1), (none, 2)] else none
    pynone := 0 }

/-! ### Claims about `PolymorphicFunction.__call__` -/

/-- C5: a `PolymorphicFunction` invocation whose inferred argument type is
previously unseen invokes the factory exactly once and caches the result; an
invocation with an already-seen type invokes the cached adapter without the
factory; two calls with distinct inferred types trigger the factory exactly
twice and two calls with the same inferred type exactly once (the factory is
assumed to return truthy adapters, as its contract requires). -/
theorem C5_polymorphic_cache {T : Type u} {F : Type v}
    (factory : T → F) (isFalsy : F → Bool) (keyrepr : T → String)
    (htruthy : ∀ t, isFalsy (factory t) = false) :
    (∀ cache t, dictGet cache (keyrepr t) = none →
        poly_step factory isFalsy keyrepr cache t =
          (dictSet cache (keyrepr t) (factory t), factory t, 1)) ∧
    (∀ cache t fn, dictGet cache (keyrepr t) = some fn → isFalsy fn = false →
        poly_step factory isFalsy keyrepr cache t = (cache, fn, 0)) ∧
    (∀ t1 t2, keyrepr t1 ≠ keyrepr t2 →
        (poly_calls factory isFalsy keyrepr [t1, t2] []).2 = 2) ∧
    (∀ t, (poly_calls factory isFalsy keyrepr [t, t] []).2 = 1) := by
  refine ⟨?_, ?_, ?_, ?_⟩
  · intro cache t h
    simp [poly_step, h]
  · intro cache t fn h hf
    simp [poly_step, h, hf]
  · intro t1 t2 h
    simp [poly_calls, poly_step, dictGet, dictSet, h, Ne.symm h]
  · intro t
    simp [poly_calls, poly_step, dictGet, dictSet, htruthy t]

/-- A small deterministic key function over `Nat` used in closed examples. -/
def natKey (n : Nat) : String := String.mk (List.replicate n 'a')

/-- C5 witness: a concrete truthy factory over `Nat`; two calls with the
distinct types `1` and `2` invoke it twice, two calls with type `1` once. -/
theorem C5_polymorphic_cache_witness :
    (poly_calls (fun n : Nat => n + 1) (fun f => decide (f = 0)) natKey [1, 2] []).2 = 2 ∧
    (poly_calls (fun n : Nat => n + 1) (fun f => decide (f = 0)) natKey [1, 1] []).2 = 1 :=
  ⟨(C5_polymorphic_cache (fun n : Nat => n + 1) (fun f => decide (f = 0)) natKey
      (fun t => by simp)).2.2.1 1 2 (by decide),
   (C5_polymorphic_cache (fun n : Nat => n + 1) (fun f => decide (f = 0)) natKey
      (fun t => by simp)).2.2.2 1⟩

/-- C8: when the factory returns a falsy value, the cache stores it, but the
hit test is the truthiness of the cached entry rather than key presence, so a
later call with the same inferred type still treats the lookup as a miss and
re-invokes the factory. -/
theorem C8_falsy_cache_entry {T : Type u} {F : Type v}
    (factory : T → F) (isFalsy : F → Bool) (keyrepr : T → String) :
    (∀ cache t, dictGet cache (keyrepr t) = none →
        (poly_step factory isFalsy keyrepr cache t).1 =
          dictSet cache (keyrepr t) (factory t)) ∧
    (∀ cache t fn, dictGet cache (keyrepr t) = some fn → isFalsy fn = true →
        poly_step factory isFalsy keyrepr cache t =
          (dictSet cache (keyrepr t) (factory t), factory t, 1)) ∧
    (∀ t, isFalsy (factory t) = true →
        (poly_calls factory isFalsy keyrepr [t, t] []).2 = 2) := by
  refine ⟨?_, ?_, ?_⟩
  · intro cache t h
    simp [poly_step, h]
  · intro cache t fn h hf
    simp [poly_step, h, hf]
  · intro t hf
    simp [poly_calls, poly_step, dictGet, dictSet, hf]

/-- C8 witness: a factory that always returns the falsy value `0`; the entry
is stored, yet a repeated call with the same type invokes the factory again. -/
theorem C8_falsy_cache_entry_witness :
    (poly_step (fun _ : Nat => (0 : Nat)) (fun f => decide (f = 0)) natKey [] 1).1 =
      dictSet [] (natKey 1) 0 ∧
    poly_step (fun _ : Nat => (0 : Nat)) (fun f => decide (f = 0)) natKey
      [(natKey 1, 0)] 1 = (dictSet [(natKey 1, 0)] (natKey 1) 0, 0, 1) ∧
    (poly_calls (fun _ : Nat => (0 : Nat)) (fun f => decide (f = 0)) natKey [1, 1] []).2 = 2 :=
  ⟨(C8_falsy_cache_entry (fun _ : Nat => (0 : Nat)) (fun f => decide (f = 0)) natKey).1
      [] 1 rfl,
   (C8_falsy_cache_entry (fun _ : Nat => (0 : Nat)) (fun f => decide (f = 0)) natKey).2.1
      [(natKey 1, 0)] 1 0 (by decide) (by decide),
   (C8_falsy_cache_entry (fun _ : Nat => (0 : Nat)) (fun f => decide (f = 0)) natKey).2.2
      1 (by decide)⟩

/-! ### Claims about error scoping and the adapter decision procedure -/

/-- C9: in `is_argspec_compatible_with_types` only a `TypeError` raised while
constructing the binding is converted into the result `false`; a fault raised
inside the defaults-verification loop (here: `types.to_type` raising on every
input) propagates to the caller, so the function is not total in returning a
boolean. -/
theorem C9_error_scoping :
    (∀ {Obj : Type} [inst : DecidableEq Obj] (ext : Ext Obj) (argspec : ArgSpec Obj)
        (args : List Obj) (kwargs : List (String × Obj)) (e : Unit),
        get_callargs_for_argspec argspec args kwargs = Except.error e →
        is_argspec_compatible_with_types ext argspec args kwargs = Except.ok false) ∧
    is_argspec_compatible_with_types extBad
      { args := ["a", "b"], varargs := none, keywords := none, defaults := [5] }
      [1, 2] [] = Except.error () := by
  constructor
  · intro Obj inst ext argspec args kwargs e h
    simp [is_argspec_compatible_with_types, h]
  · decide

/-- C9 witness: the general conversion-to-`false` arm applied to a concrete
binding failure (two positional arguments for a one-name spec). -/
theorem C9_error_scoping_witness :
    is_argspec_compatible_with_types ext0
      { args := ["a"], varargs := none, keywords := none, defaults := [] }
      [1, 2] [] = Except.ok false :=
  C9_error_scoping.1 ext0
    { args := ["a"], varargs := none, keywords := none, defaults := [] }
    [1, 2] [] () (by decide)

/-- C1: with unpack preference `Infer` (`None`), whenever the two feasibility
computations return without raising, `wrap_as_zero_or_one_arg_callable` fails
with `AmbiguousUnpackingChoice` exactly when both forms are feasible (not
`unpack_required` and `unpack_possible`), fails with `CannotAcceptEitherForm`
exactly when neither is, and otherwise succeeds with
`unpack_required = unpack_possible` and that shared value as the effective
unpack decision. -/
theorem C1_infer_resolution {Obj : Type u} [DecidableEq Obj] (ext : Ext Obj)
    (argspec : ArgSpec Obj) (pt : Obj) (r p : Bool)
    (hr : is_argspec_compatible_with_types ext argspec [pt] [] = Except.ok r)
    (hp : unpack_possible_calc ext argspec pt = Except.ok p) :
    (wrap_decision ext argspec (some pt) none = Except.error WrapErr.ambiguousUnpackingChoice
      ↔ ((!r) = false ∧ p = true)) ∧
    (wrap_decision ext argspec (some pt) none = Except.error WrapErr.cannotAcceptEitherForm
      ↔ ((!r) = true ∧ p = false)) ∧
    (∀ res, wrap_decision ext argspec (some pt) none = Except.ok res →
      ((!r) = p ∧ res = WrapResult.oneArg (!r))) := by
  cases r <;> cases p <;>
    simp [wrap_decision, hr, hp] <;>
    intro res h <;> simp at h <;> simp [h]

/-- C1 witness: a spec `[x]` with a scalar (non-tuple) parameter type: the
single-argument form is feasible, unpacking is not, and the adapter is the
no-unpack one-argument adapter. -/
theorem C1_infer_resolution_witness :
    (wrap_decision ext0 { args := ["x"], varargs := none, keywords := none, defaults := [] }
        (some 5) none = Except.error WrapErr.ambiguousUnpackingChoice
      ↔ ((!true) = false ∧ false = true)) ∧
    (wrap_decision ext0 { args := ["x"], varargs := none, keywords := none, defaults := [] }
        (some 5) none = Except.error WrapErr.cannotAcceptEitherForm
      ↔ ((!true) = true ∧ false = false)) ∧
    (∀ res, wrap_decision ext0
        { args := ["x"], varargs := none, keywords := none, defaults := [] }
        (some 5) none = Except.ok res →
      ((!true) = false ∧ res = WrapResult.oneArg (!true))) :=
  C1_infer_resolution ext0
    { args := ["x"], varargs := none, keywords := none, defaults := [] }
    5 true false (by decide) (by decide)

/-- C2 counterexample: an `AnonymousTuple` with a named element before an
unnamed one fails `is_argument_tuple`, yet `unpack_args_from_tuple` does not
raise `NotArgumentTuple`: it happily returns the positional/named split. -/
theorem C2_counterexample :
    is_argument_tuple ext0 (PyVal.anon [(some "a", 1), (none, 2)]) = Except.ok false ∧
    unpack_args_from_tuple ext0 (PyVal.anon [(some "a", 1), (none, 2)]) =
      Except.ok ([2], [("a", 1)]) := by
  constructor <;> decide

/-- C2 amended: `unpack_args_from_tuple` fails exactly when its input is
neither an `AnonymousTuple` nor an object coerced by `types.to_type` to a
named-tuple type; the unnamed-before-named invariant of `is_argument_tuple`
is not checked, so every `AnonymousTuple` is split. -/
theorem C2_unpack_failure_amended {Obj : Type u} (ext : Ext Obj) (x : PyVal Obj) :
    (∃ e, unpack_args_from_tuple ext x = Except.error e) ↔
    (∃ o, x = PyVal.obj o ∧
      ((∃ e, ext.to_type o = Except.error e) ∨
       (∃ t, ext.to_type o = Except.ok t ∧ ext.elements t = none))) := by
  cases x with
  | anon es => simp [unpack_args_from_tuple]
  | obj o =>
      cases hto : ext.to_type o with
      | error e => simp [unpack_args_from_tuple, hto]
      | ok t =>
          cases hel : ext.elements t with
          | none => simp [unpack_args_from_tuple, hto, hel]
          | some es => simp [unpack_args_from_tuple, hto, hel]

/-- C10 counterexample: an element named by the empty string is classified
as unnamed, so its occurrence after a genuinely named element makes
`is_argument_tuple` false (the claim asserted it would not). -/
theorem C10_counterexample :
    is_argument_tuple ext0 (PyVal.anon [(some "a", 1), (some "", 2)]) = Except.ok false := by
  decide

/-! ### Lemmas about the `is_argument_tuple` scan -/

theorem scanLoop_mn_le {α : Type v} (es : List (Option String × α)) (idx : Nat) (mx mn : Int) :
    (scanLoop es idx mx mn).2 ≤ mn := by
  induction es generalizing idx mx mn with
  | nil => simp [scanLoop]
  | cons e rest ih =>
      by_cases h : truthyName e.1
      · simp only [scanLoop, h, if_pos]
        exact le_trans (ih (idx + 1) mx (min mn idx)) (min_le_left mn idx)
      · simp only [scanLoop, h]
        simpa using ih (idx + 1) idx mn

theorem scanLoop_mx_ge {α : Type v} (es : List (Option String × α)) (idx : Nat) (mx mn : Int)
    (h : mx < (idx : Int)) : mx ≤ (scanLoop es idx mx mn).1 := by
  induction es generalizing idx mx mn with
  | nil => simp [scanLoop]
  | cons e rest ih =>
      by_cases he : truthyName e.1
      · simp only [scanLoop, he, if_pos]
        exact ih (idx + 1) mx (min mn idx) (lt_trans h (by exact_mod_cast Nat.lt_succ_self idx))
      · simp only [scanLoop, he]
        simp only [Bool.false_eq_true, if_false]
        have h2 : (idx : Int) ≤ (scanLoop rest (idx + 1) idx mn).1 :=
          ih (idx + 1) idx mn (by exact_mod_cast Nat.lt_succ_self idx)
        exact le_trans (le_of_lt h) h2

theorem scanLoop_no_named {α : Type v} (es : List (Option String × α)) (idx : Nat) (mx mn : Int)
    (hes : ∀ e ∈ es, truthyName e.1 = false) (hmx : mx < (idx : Int)) :
    (scanLoop es idx mx mn).2 = mn ∧ (scanLoop es idx mx mn).1 < (idx : Int) + es.length := by
  induction es generalizing idx mx mn with
  | nil => simpa [scanLoop] using hmx
  | cons e rest ih =>
      have he : truthyName e.1 = false := hes e (List.mem_cons_self e rest)
      simp only [scanLoop, he, Bool.false_eq_true, if_false]
      have ihr := ih (idx + 1) idx mn
        (fun e0 hm => hes e0 (List.mem_cons_of_mem e hm))
        (by exact_mod_cast Nat.lt_succ_self idx)
      refine ⟨ihr.1, ?_⟩
      have : ((idx + 1 : Nat) : Int) + rest.length = (idx : Int) + (e :: rest).length := by
        simp; omega
      rw [← this]
      exact ihr.2

theorem scanLoop_all_named {α : Type v} (es : List (Option String × α)) (idx : Nat) (mx mn : Int)
    (hes : ∀ e ∈ es, truthyName e.1 = true) :
    (scanLoop es idx mx mn).1 = mx ∧ min mn (idx : Int) ≤ (scanLoop es idx mx mn).2 := by
  induction es generalizing idx mx mn with
  | nil => simp [scanLoop]
  | cons e rest ih =>
      have he : truthyName e.1 = true := hes e (List.mem_cons_self e rest)
      simp only [scanLoop, he, if_pos]
      have ihr := ih (idx + 1) mx (min mn idx) (fun e0 hm => hes e0 (List.mem_cons_of_mem e hm))
      refine ⟨ihr.1, le_trans ?_ ihr.2⟩
      have : ((idx + 1 : Nat) : Int) = (idx : Int) + 1 := by push_cast; ring
      rw [this]
      omega

theorem scanLoop_named_at {α : Type v} (es : List (Option String × α)) (idx : Nat) (mx mn : Int)
    (k : Nat) (hk : k < es.length) (hnamed : truthyName (es.get ⟨k, hk⟩).1 = true) :
    (scanLoop es idx mx mn).2 ≤ (idx : Int) + k := by
  induction es generalizing idx mx mn k with
  | nil => cases hk
  | cons e rest ih =>
      cases k with
      | zero =>
          have he : truthyName e.1 = true := hnamed
          simp only [scanLoop, he, if_pos]
          have h1 := scanLoop_mn_le rest (idx + 1) mx (min mn idx)
          have h2 : min mn (idx : Int) ≤ (idx : Int) := min_le_right mn idx
          simpa using le_trans h1 h2
      | succ k0 =>
          have hk0 : k0 < rest.length := Nat.lt_of_succ_lt_succ hk
          have hn0 : truthyName (rest.get ⟨k0, hk0⟩).1 = true := hnamed
          by_cases he : truthyName e.1
          · simp only [scanLoop, he, if_pos]
            have := ih (idx + 1) mx (min mn idx) k0 hk0 hn0
            have hc : ((idx + 1 : Nat) : Int) + k0 = (idx : Int) + (k0 + 1) := by
              push_cast; ring
            rw [hc] at this
            exact_mod_cast this
          · simp only [scanLoop, he, Bool.false_eq_true, if_false]
            have := ih (idx + 1) idx mn k0 hk0 hn0
            have hc : ((idx + 1 : Nat) : Int) + k0 = (idx : Int) + (k0 + 1) := by
              push_cast; ring
            rw [hc] at this
            exact_mod_cast this

theorem scanLoop_unnamed_at {α : Type v} (es : List (Option String × α)) (idx : Nat)
    (mx mn : Int) (k : Nat) (hk : k < es.length) (hmx : mx < (idx : Int))
    (hunnamed : truthyName (es.get ⟨k, hk⟩).1 = false) :
    (idx : Int) + k ≤ (scanLoop es idx mx mn).1 := by
  induction es generalizing idx mx mn k with
  | nil => cases hk
  | cons e rest ih =>
      cases k with
      | zero =>
          have he : truthyName e.1 = false := hunnamed
          simp only [scanLoop, he, Bool.false_eq_true, if_false]
          have := scanLoop_mx_ge rest (idx + 1) idx mn (by exact_mod_cast Nat.lt_succ_self idx)
          simpa using this
      | succ k0 =>
          have hk0 : k0 < rest.length := Nat.lt_of_succ_lt_succ hk
          have hn0 : truthyName (rest.get ⟨k0, hk0⟩).1 = false := hunnamed
          by_cases he : truthyName e.1
          · simp only [scanLoop, he, if_pos]
            have := ih (idx + 1) mx (min mn idx) k0 hk0
              (lt_trans hmx (by exact_mod_cast Nat.lt_succ_self idx)) hn0
            have hc : ((idx + 1 : Nat) : Int) + k0 = (idx : Int) + (k0 + 1) := by
              push_cast; ring
            rw [hc] at this
            exact_mod_cast this
          · simp only [scanLoop, he, Bool.false_eq_true, if_false]
            have := ih (idx + 1) idx mn k0 hk0
              (by exact_mod_cast Nat.lt_succ_self idx) hn0
            have hc : ((idx + 1 : Nat) : Int) + k0 = (idx : Int) + (k0 + 1) := by
              push_cast; ring
            rw [hc] at this
            exact_mod_cast this

theorem scanLoop_append {α : Type v} (a b : List (Option String × α)) (idx : Nat) (mx mn : Int) :
    scanLoop (a ++ b) idx mx mn =
      scanLoop b (idx + a.length) (scanLoop a idx mx mn).1 (scanLoop a idx mx mn).2 := by
  induction a generalizing idx mx mn with
  | nil => simp [scanLoop]
  | cons e rest ih =>
      by_cases he : truthyName e.1
      · simp only [List.cons_append, scanLoop, he, if_pos]
        rw [show rest.append b = rest ++ b from rfl, ih]
        congr 1
        simp; omega
      · simp only [List.cons_append, scanLoop, he, Bool.false_eq_true, if_false]
        rw [show rest.append b = rest ++ b from rfl, ih]
        congr 1
        simp; omega

theorem get_append_cons {α : Type v} (a b : List α) (x : α)
    (h : a.length < (a ++ x :: b).length) : (a ++ x :: b).get ⟨a.length, h⟩ = x := by
  induction a with
  | nil => rfl
  | cons y rest ih => exact ih (by simpa using Nat.lt_of_succ_lt_succ (by simpa using h))

/-- The element scan rejects any list with a (truthy-)named element strictly
before an unnamed one. -/
theorem argTupleElems_false_of_named_before_unnamed {α : Type v}
    (es : List (Option String × α)) (i j : Nat) (hi : i < es.length) (hj : j < es.length)
    (hij : i < j) (hni : truthyName (es.get ⟨i, hi⟩).1 = true)
    (hnj : truthyName (es.get ⟨j, hj⟩).1 = false) : argTupleElems es = false := by
  have h1 := scanLoop_named_at es 0 (-1) (es.length : Int) i hi hni
  have h2 := scanLoop_unnamed_at es 0 (-1) (es.length : Int) j hj (by norm_num) hnj
  simp only [argTupleElems, decide_eq_false_iff_not, not_lt]
  omega

/-- Shape form of the rejection lemma: any list of the form
`a ++ x :: b ++ y :: c` with `x` named and `y` unnamed fails the scan. -/
theorem argTupleElems_shape_false {α : Type v} (a b c : List (Option String × α))
    (x y : Option String × α) (hx : truthyName x.1 = true)
    (hy : truthyName y.1 = false) :
    argTupleElems (a ++ x :: b ++ y :: c) = false := by
  simp only [argTupleElems, decide_eq_false_iff_not, not_lt]
  set L := ((a ++ x :: b ++ y :: c).length : Int) with hL
  rw [scanLoop_append (a ++ x :: b) (y :: c) 0 (-1) L,
    scanLoop_append a (x :: b) 0 (-1) L]
  set m1 := scanLoop a 0 (-1) L with hm1
  have hx1 : scanLoop (x :: b) (0 + a.length) m1.1 m1.2 =
      scanLoop b (0 + a.length + 1) m1.1 (min m1.2 ((0 + a.length : Nat) : Int)) := by
    simp only [scanLoop, hx, if_pos]
  rw [hx1]
  set m2 := scanLoop b (0 + a.length + 1) m1.1 (min m1.2 ((0 + a.length : Nat) : Int))
    with hm2
  have hy1 : scanLoop (y :: c) (0 + (a ++ x :: b).length) m2.1 m2.2 =
      scanLoop c (0 + (a ++ x :: b).length + 1)
        ((0 + (a ++ x :: b).length : Nat) : Int) m2.2 := by
    simp only [scanLoop, hy, Bool.false_eq_true, if_false]
  rw [hy1]
  have h1 : ((0 + (a ++ x :: b).length : Nat) : Int) ≤
      (scanLoop c (0 + (a ++ x :: b).length + 1)
        ((0 + (a ++ x :: b).length : Nat) : Int) m2.2).1 :=
    scanLoop_mx_ge c _ _ m2.2 (by exact_mod_cast Nat.lt_succ_self _)
  have h2 : (scanLoop c (0 + (a ++ x :: b).length + 1)
      ((0 + (a ++ x :: b).length : Nat) : Int) m2.2).2 ≤ m2.2 :=
    scanLoop_mn_le c _ _ m2.2
  have h3 : m2.2 ≤ min m1.2 ((0 + a.length : Nat) : Int) := by
    rw [hm2]; exact scanLoop_mn_le b _ m1.1 _
  have h4 : min m1.2 ((0 + a.length : Nat) : Int) ≤ ((a.length : Nat) : Int) := by
    simp [min_le_right]
  have h5 : ((a ++ x :: b).length : Int) = (a.length : Int) + b.length + 1 := by
    push_cast
    simp only [List.length_append, List.length_cons]
    push_cast
    ring
  push_cast at h1 h2 h3 h4 h5 ⊢
  omega

/-- A list accepted by the element scan is sorted: every element after a
(truthy-)named one is named. -/
theorem argTupleElems_sorted {α : Type v} (es : List (Option String × α))
    (h : argTupleElems es = true) (i j : Nat) (hi : i < es.length) (hj : j < es.length)
    (hij : i < j) (hni : truthyName (es.get ⟨i, hi⟩).1 = true) :
    truthyName (es.get ⟨j, hj⟩).1 = true := by
  by_cases hnj : truthyName (es.get ⟨j, hj⟩).1 = true
  · exact hnj
  · have := argTupleElems_false_of_named_before_unnamed es i j hi hj hij hni
      (by simpa using hnj)
    rw [this] at h
    cases h

/-- Any sorted element list splits into an unnamed part followed by a named
part. -/
theorem decomp_of_sorted {α : Type v} (es : List (Option String × α))
    (h : ∀ (i j : Nat) (hi : i < es.length) (hj : j < es.length), i < j →
      truthyName (es.get ⟨i, hi⟩).1 = true → truthyName (es.get ⟨j, hj⟩).1 = true) :
    ∃ u n, es = u ++ n ∧ (∀ e ∈ u, truthyName e.1 = false) ∧
      (∀ e ∈ n, truthyName e.1 = true) := by
  induction es with
  | nil =>
      refine ⟨[], [], rfl, ?_, ?_⟩ <;> intro e he <;> cases he
  | cons e rest ih =>
      by_cases he : truthyName e.1 = true
      · refine ⟨[], e :: rest, rfl, ?_, ?_⟩
        · intro e0 he0; cases he0
        intro e0 he0
        rcases List.mem_cons.1 he0 with h0 | h0
        · rw [h0]; exact he
        · rcases List.mem_iff_get.1 h0 with ⟨⟨k, hk⟩, hget⟩
          have := h 0 (k + 1) (Nat.succ_pos _) (Nat.succ_lt_succ hk) (Nat.succ_pos _) he
          rw [← hget]
          simpa using this
      · have hrest : ∀ (i j : Nat) (hi : i < rest.length) (hj : j < rest.length), i < j →
            truthyName (rest.get ⟨i, hi⟩).1 = true →
            truthyName (rest.get ⟨j, hj⟩).1 = true := by
          intro i j hi hj hij hni
          have := h (i + 1) (j + 1) (Nat.succ_lt_succ hi) (Nat.succ_lt_succ hj)
            (Nat.succ_lt_succ hij) (by simpa using hni)
          simpa using this
        rcases ih hrest with ⟨u, n, heq, hu, hn⟩
        refine ⟨e :: u, n, by rw [heq]; rfl, ?_, hn⟩
        intro e0 he0
        rcases List.mem_cons.1 he0 with h0 | h0
        · rw [h0]; simpa using he
        · exact hu e0 h0

/-! ### Lemmas about the `unpack_args_from_tuple` loop -/

theorem unpackLoop_append {α : Type v} (a b : List (Option String × α))
    (acc : List α × List (String × α)) :
    unpackLoop (a ++ b) acc = unpackLoop b (unpackLoop a acc) := by
  induction a generalizing acc with
  | nil => simp [unpackLoop]
  | cons e rest ih =>
      by_cases he : truthyName e.1
      · simp [unpackLoop, he, ih]
      · simp [unpackLoop, he, ih]

theorem unpackLoop_unnamed {α : Type v} (u : List (Option String × α))
    (acc : List α × List (String × α)) (h : ∀ e ∈ u, truthyName e.1 = false) :
    unpackLoop u acc = (acc.1 ++ u.map (fun e => e.2), acc.2) := by
  induction u generalizing acc with
  | nil => simp [unpackLoop]
  | cons e rest ih =>
      have he : truthyName e.1 = false := h e (List.mem_cons_self e rest)
      simp only [unpackLoop, he, Bool.false_eq_true, if_false]
      rw [ih _ (fun e0 hm => h e0 (List.mem_cons_of_mem e hm))]
      simp

theorem unpackLoop_named {α : Type v} (n : List (Option String × α))
    (as : List α) (ks : List (String × α))
    (hall : ∀ e ∈ n, truthyName e.1 = true)
    (hfresh : ∀ e ∈ n, dictGet ks (e.1.getD "") = none)
    (hnodup : n.Pairwise (fun a b => a.1.getD "" ≠ b.1.getD "")) :
    unpackLoop n (as, ks) = (as, ks ++ n.map (fun e => (e.1.getD "", e.2))) := by
  induction n generalizing ks with
  | nil => simp [unpackLoop]
  | cons e rest ih =>
      have he : truthyName e.1 = true := hall e (List.mem_cons_self e rest)
      simp only [unpackLoop, he, if_pos]
      rw [dictSet_eq_append ks (e.1.getD "") e.2 (hfresh e (List.mem_cons_self e rest))]
      rw [ih (ks ++ [(e.1.getD "", e.2)])
        (fun e0 hm => hall e0 (List.mem_cons_of_mem e hm))
        (fun e0 hm => by
          have hne : e.1.getD "" ≠ e0.1.getD "" :=
            (List.pairwise_cons.1 hnodup).1 e0 hm
          rw [dictGet_append_ne ks (e.1.getD "") (e0.1.getD "") e.2 hne]
          exact hfresh e0 (List.mem_cons_of_mem e hm))
        (List.pairwise_cons.1 hnodup).2]
      simp

/-! ### Claims about `is_argument_tuple` and the unpack/pack round trip -/

/-- C6: `is_argument_tuple` is false on any element sequence with a named
element strictly before an unnamed one, and true for every all-unnamed,
all-named, or unnamed-then-named sequence, and for the empty sequence. -/
theorem C6_argument_tuple_shapes {Obj : Type u} (ext : Ext Obj) :
    (∀ (es : List (Option String × Obj)) (i j : Nat) (hi : i < es.length)
        (hj : j < es.length), i < j → truthyName (es.get ⟨i, hi⟩).1 = true →
        truthyName (es.get ⟨j, hj⟩).1 = false →
        is_argument_tuple ext (PyVal.anon es) = Except.ok false) ∧
    (∀ es : List (Option String × Obj), (∀ e ∈ es, truthyName e.1 = false) →
        is_argument_tuple ext (PyVal.anon es) = Except.ok true) ∧
    (∀ es : List (Option String × Obj), (∀ e ∈ es, truthyName e.1 = true) →
        is_argument_tuple ext (PyVal.anon es) = Except.ok true) ∧
    (∀ u n : List (Option String × Obj), (∀ e ∈ u, truthyName e.1 = false) →
        (∀ e ∈ n, truthyName e.1 = true) →
        is_argument_tuple ext (PyVal.anon (u ++ n)) = Except.ok true) ∧
    is_argument_tuple ext (PyVal.anon ([] : List (Option String × Obj))) =
      Except.ok true := by
  refine ⟨?_, ?_, ?_, ?_, rfl⟩
  · intro es i j hi hj hij hni hnj
    simp [is_argument_tuple,
      argTupleElems_false_of_named_before_unnamed es i j hi hj hij hni hnj]
  · intro es h
    have := scanLoop_no_named es 0 (-1) (es.length : Int) h (by norm_num)
    simp only [is_argument_tuple, Except.ok.injEq, argTupleElems,
      decide_eq_true_eq]
    omega
  · intro es h
    have := scanLoop_all_named es 0 (-1) (es.length : Int) h
    have hlen : (0 : Int) ≤ (es.length : Int) := by positivity
    simp only [is_argument_tuple, Except.ok.injEq, argTupleElems,
      decide_eq_true_eq]
    omega
  · intro u n hu hn
    have happ := scanLoop_append u n 0 (-1) ((u ++ n).length : Int)
    have h1 := scanLoop_no_named u 0 (-1) ((u ++ n).length : Int) hu (by norm_num)
    have h2 := scanLoop_all_named n (0 + u.length)
      (scanLoop u 0 (-1) ((u ++ n).length : Int)).1
      (scanLoop u 0 (-1) ((u ++ n).length : Int)).2 hn
    have hlen : ((u ++ n).length : Int) = (u.length : Int) + n.length := by
      simp
    simp only [is_argument_tuple, Except.ok.injEq, argTupleElems,
      decide_eq_true_eq]
    rw [happ]
    omega

/-- C6 witness: the general named-before-unnamed arm at a concrete tuple,
and the unnamed-then-named arm at a concrete tuple. -/
theorem C6_argument_tuple_shapes_witness :
    is_argument_tuple ext0 (PyVal.anon [(some "a", 1), (none, 2)]) = Except.ok false ∧
    is_argument_tuple ext0 (PyVal.anon [(none, 1), (some "b", 2)]) = Except.ok true :=
  ⟨(C6_argument_tuple_shapes ext0).1 [(some "a", 1), (none, 2)] 0 1
      (by decide) (by decide) (by decide) (by decide) (by decide),
   (C6_argument_tuple_shapes ext0).2.2.2.1 [(none, 1)] [(some "b", 2)]
      (by decide) (by decide)⟩

/-- C10 amended: an element named by the empty string is classified as
unnamed by both functions (the name is tested for truthiness, not for being
`None`); consequently such an element occurring after a genuinely named
element MAKES `is_argument_tuple` false, and `unpack_args_from_tuple` routes
it into the positional list rather than the keyword mapping. -/
theorem C10_empty_name_amended {Obj : Type u} (ext : Ext Obj) :
    truthyName (some "") = false ∧
    (∀ (pre mid post : List (Option String × Obj)) (s : String) (v w : Obj),
        s.isEmpty = false →
        is_argument_tuple ext
          (PyVal.anon (pre ++ (some s, v) :: mid ++ (some "", w) :: post)) =
          Except.ok false) ∧
    (∀ (es : List (Option String × Obj)) (w : Obj),
        unpack_elements (es ++ [(some "", w)]) =
          ((unpack_elements es).1 ++ [w], (unpack_elements es).2)) := by
  refine ⟨rfl, ?_, ?_⟩
  · intro pre mid post s v w hs
    simp only [is_argument_tuple, Except.ok.injEq]
    exact argTupleElems_shape_false pre mid post (some s, v) (some "", w)
      (by simp [truthyName, hs]) rfl
  · intro es w
    have hE : truthyName (some "") = false := by decide
    simp [unpack_elements, unpackLoop_append, unpackLoop, hE]

/-- C10 amended witness: the named-then-empty-named shape at a concrete
tuple, and the positional routing of an empty-named element. -/
theorem C10_empty_name_amended_witness :
    is_argument_tuple ext0 (PyVal.anon ([] ++ (some "a", 1) :: [] ++ (some "", 2) :: [])) =
      Except.ok false ∧
    unpack_elements ([(some "a", 1)] ++ [(some "", (2 : Nat))]) =
      ((unpack_elements [(some "a", 1)]).1 ++ [2], (unpack_elements [(some "a", (1 : Nat))]).2) :=
  ⟨(C10_empty_name_amended ext0).2.1 [] [] [] "a" 1 2 rfl,
   (C10_empty_name_amended ext0).2.2 [(some "a", 1)] 2⟩

/-- C4 counterexample: a tuple with a duplicate name passes
`is_argument_tuple`, but unpacking and re-packing collapses the duplicate
keyword entries, so the round trip does not reproduce the element ordering
and names. -/
theorem C4_counterexample :
    is_argument_tuple ext0 (PyVal.anon [(some "a", 1), (some "a", 2)]) = Except.ok true ∧
    unpack_args_from_tuple ext0 (PyVal.anon [(some "a", 1), (some "a", 2)]) =
      Except.ok ([], [("a", 2)]) ∧
    pack_args_into_anonymous_tuple ([] : List Nat) [("a", 2)] =
      PyVal.anon [(some "a", 2)] ∧
    PyVal.anon [(some "a", (2 : Nat))] ≠ PyVal.anon [(some "a", 1), (some "a", 2)] := by
  refine ⟨by decide, by decide, by decide, by decide⟩

/-- Every truthy-named element has a `some` name recovered by `getD`. -/
theorem name_eq_some_of_truthy {α : Type v} (e : Option String × α)
    (h : truthyName e.1 = true) : e.1 = some (e.1.getD "") := by
  cases hn : e.1 with
  | none => rw [hn] at h; cases h
  | some s => rfl

/-- C4 amended: for a tuple satisfying `is_argument_tuple` whose genuinely
named elements carry pairwise distinct names and whose unnamed elements have
the literal name `None` (not the empty string), unpacking and re-packing the
returned positional/named parts reproduces the tuple exactly, keyword
elements appearing in their original order. -/
theorem C4_roundtrip_amended {Obj : Type u} (ext : Ext Obj)
    (es : List (Option String × Obj))
    (h1 : is_argument_tuple ext (PyVal.anon es) = Except.ok true)
    (h2 : ∀ e ∈ es, e.1 = none ∨ truthyName e.1 = true)
    (h3 : es.Pairwise (fun a b => truthyName a.1 = true → truthyName b.1 = true →
      a.1 ≠ b.1))
    (args : List Obj) (kwargs : List (String × Obj))
    (hu : unpack_args_from_tuple ext (PyVal.anon es) = Except.ok (args, kwargs)) :
    pack_args_into_anonymous_tuple args kwargs = PyVal.anon es := by
  have hes : argTupleElems es = true := by
    simpa [is_argument_tuple] using h1
  have huv : unpack_elements es = (args, kwargs) := by
    simpa [unpack_args_from_tuple] using hu
  rcases decomp_of_sorted es (fun i j hi hj hij hni =>
    argTupleElems_sorted es hes i j hi hj hij hni) with ⟨u, n, heq, hu0, hn0⟩
  subst heq
  have hnpair : n.Pairwise (fun a b => a.1.getD "" ≠ b.1.getD "") := by
    have hp : n.Pairwise (fun a b => truthyName a.1 = true → truthyName b.1 = true →
        a.1 ≠ b.1) := ((List.pairwise_append.1 h3).2.1)
    refine hp.imp_of_mem ?_
    intro a b ha hb hab
    have hta := hn0 a ha
    have htb := hn0 b hb
    have hne := hab hta htb
    intro hgd
    apply hne
    rw [name_eq_some_of_truthy a hta, name_eq_some_of_truthy b htb, hgd]
  have hunp : unpack_elements (u ++ n) =
      (u.map (fun e => e.2), n.map (fun e => (e.1.getD "", e.2))) := by
    rw [unpack_elements, unpackLoop_append, unpackLoop_unnamed u ([], []) hu0]
    simpa using unpackLoop_named n (List.map (fun e => e.2) u) [] hn0
      (fun e _ => rfl) hnpair
  rw [hunp] at huv
  have hargs : args = u.map (fun e => e.2) := by
    have := congrArg Prod.fst huv; simpa using this.symm
  have hkw : kwargs = n.map (fun e => (e.1.getD "", e.2)) := by
    have := congrArg Prod.snd huv; simpa using this.symm
  subst hargs hkw
  simp only [pack_args_into_anonymous_tuple, PyVal.anon.injEq, List.map_map]
  have hl : List.map ((fun a => ((none : Option String), a)) ∘ fun e => e.2) u = u := by
    have : ∀ e ∈ u, ((fun a => ((none : Option String), a)) ∘ fun e => e.2) e = e := by
      intro e he
      have hne : truthyName e.1 = false := hu0 e he
      rcases h2 e (List.mem_append_left n he) with hnone | htr
      · exact Prod.ext hnone.symm rfl
      · rw [htr] at hne; cases hne
    calc List.map ((fun a => ((none : Option String), a)) ∘ fun e => e.2) u
        = List.map id u := List.map_congr_left this
      _ = u := List.map_id u
  have hr : List.map ((fun kv => (some kv.1, kv.2)) ∘ fun e => (e.1.getD "", e.2)) n
      = n := by
    have : ∀ e ∈ n, ((fun kv => ((some kv.1 : Option String), kv.2)) ∘
        fun e => (e.1.getD "", e.2)) e = e := by
      intro e he
      have hte := hn0 e he
      exact Prod.ext (name_eq_some_of_truthy e hte).symm rfl
    calc List.map ((fun kv => ((some kv.1 : Option String), kv.2)) ∘
          fun e => (e.1.getD "", e.2)) n
        = List.map id n := List.map_congr_left this
      _ = n := List.map_id n
  rw [hl, hr]

/-- C4 amended witness: a concrete unnamed-then-named tuple with distinct
names round-trips exactly. -/
theorem C4_roundtrip_amended_witness :
    pack_args_into_anonymous_tuple
      (unpack_elements [(none, 1), (some "a", 2), (some "b", 3)]).1
      (unpack_elements [(none, (1 : Nat)), (some "a", 2), (some "b", 3)]).2 =
      PyVal.anon [(none, 1), (some "a", 2), (some "b", 3)] :=
  C4_roundtrip_amended ext0 [(none, 1), (some "a", 2), (some "b", 3)]
    (by decide) (by decide)
    (by refine List.Pairwise.cons ?_ (List.Pairwise.cons ?_ (List.Pairwise.cons ?_ List.Pairwise.nil)) <;> decide)
    (unpack_elements [(none, 1), (some "a", 2), (some "b", 3)]).1
    (unpack_elements [(none, 1), (some "a", 2), (some "b", 3)]).2
    (by decide)

/-! ### Characterisation of the defaults-verification loop -/

/-- The condition under which one iteration of the defaults-verification
loop passes for default `d` sitting at loop position `pos`. -/
def stepOK {Obj : Type u} [DecidableEq Obj] (ext : Ext Obj) (argNames : List String)
    (nswd : Nat) (callargs : List (String × CallArg Obj)) (d : Obj) (pos : Nat) : Prop :=
  d = ext.pynone ∨
    ∃ nm, argNames[nswd + pos]? = some nm ∧
      ∃ v, dictGet callargs nm = some (CallArg.one v) ∧
        (v = d ∨ ∃ t dt, ext.to_type v = Except.ok t ∧
          ext.infer_type d = Except.ok dt ∧ ext.assignable t dt = true)

theorem forall_get_cons_shift {α : Type v} (P : α → Nat → Prop) (d : α) (rest : List α)
    (idx : Nat) :
    (∀ (k : Nat) (hk : k < (d :: rest).length), P ((d :: rest).get ⟨k, hk⟩) (idx + k)) ↔
      (P d idx ∧ ∀ (k : Nat) (hk : k < rest.length), P (rest.get ⟨k, hk⟩) (idx + 1 + k)) := by
  constructor
  · intro h
    refine ⟨by simpa using h 0 (Nat.succ_pos _), ?_⟩
    intro k hk
    have := h (k + 1) (Nat.succ_lt_succ hk)
    have harith : idx + (k + 1) = idx + 1 + k := by omega
    rw [harith] at this
    simpa using this
  · intro h k hk
    cases k with
    | zero => simpa using h.1
    | succ k0 =>
        have hk0 : k0 < rest.length := Nat.lt_of_succ_lt_succ hk
        have := h.2 k0 hk0
        have harith : idx + 1 + k0 = idx + (k0 + 1) := by omega
        rw [harith] at this
        simpa using this

/-- The defaults-verification loop returns `ok true` exactly when every
iteration passes. -/
theorem compatLoop_ok_true_iff {Obj : Type u} [DecidableEq Obj] (ext : Ext Obj)
    (argNames : List String) (nswd : Nat) (callargs : List (String × CallArg Obj))
    (ds : List Obj) (idx : Nat) :
    compatLoop ext argNames nswd callargs ds idx = Except.ok true ↔
      ∀ (k : Nat) (hk : k < ds.length),
        stepOK ext argNames nswd callargs (ds.get ⟨k, hk⟩) (idx + k) := by
  induction ds generalizing idx with
  | nil =>
      simp only [compatLoop]
      constructor
      · intro _ k hk; exact absurd hk (Nat.not_lt_zero k)
      · intro _; trivial
  | cons d rest ih =>
      rw [forall_get_cons_shift]
      by_cases hpy : d = ext.pynone
      · have hstep : compatLoop ext argNames nswd callargs (d :: rest) idx =
            compatLoop ext argNames nswd callargs rest (idx + 1) := by
          simp [compatLoop, hpy]
        rw [hstep, ih (idx + 1)]
        exact ⟨fun h => ⟨Or.inl hpy, h⟩, fun h => h.2⟩
      · cases hnm : argNames[nswd + idx]? with
        | none =>
            have hstep : compatLoop ext argNames nswd callargs (d :: rest) idx =
                Except.error () := by
              simp [compatLoop, hpy, hnm]
            rw [hstep]
            constructor
            · intro h; simp at h
            · intro h
              rcases h.1 with h0 | ⟨nm, hnm2, _⟩
              · exact absurd h0 hpy
              · rw [hnm] at hnm2; cases hnm2
        | some nm =>
            cases hget : dictGet callargs nm with
            | none =>
                have hstep : compatLoop ext argNames nswd callargs (d :: rest) idx =
                    Except.error () := by
                  simp [compatLoop, hpy, hnm, hget]
                rw [hstep]
                constructor
                · intro h; simp at h
                · intro h
                  rcases h.1 with h0 | ⟨nm2, hnm2, v, hv, _⟩
                  · exact absurd h0 hpy
                  · rw [hnm] at hnm2; cases hnm2
                    rw [hget] at hv; cases hv
            | some cargs =>
                cases cargs with
                | one v =>
                    by_cases hvd : v = d
                    · have hstep : compatLoop ext argNames nswd callargs (d :: rest) idx =
                          compatLoop ext argNames nswd callargs rest (idx + 1) := by
                        simp [compatLoop, hpy, hnm, hget, hvd]
                      rw [hstep, ih (idx + 1)]
                      constructor
                      · intro h
                        exact ⟨Or.inr ⟨nm, hnm, d, by rw [← hvd]; exact hget,
                          Or.inl rfl⟩, h⟩
                      · intro h; exact h.2
                    · cases hto : ext.to_type v with
                      | error e =>
                          have hstep : compatLoop ext argNames nswd callargs
                              (d :: rest) idx = Except.error e := by
                            simp [compatLoop, hpy, hnm, hget, hvd, hto]
                          rw [hstep]
                          constructor
                          · intro h; simp at h
                          · intro h
                            rcases h.1 with h0 | ⟨nm2, hnm2, v2, hv2, h3⟩
                            · exact absurd h0 hpy
                            · rw [hnm] at hnm2; cases hnm2
                              rw [hget] at hv2; cases hv2
                              rcases h3 with h3 | ⟨t, dt, ht, _, _⟩
                              · exact absurd h3 hvd
                              · rw [hto] at ht; cases ht
                      | ok t =>
                          cases hin : ext.infer_type d with
                          | error e =>
                              have hstep : compatLoop ext argNames nswd callargs
                                  (d :: rest) idx = Except.error e := by
                                simp [compatLoop, hpy, hnm, hget, hvd, hto, hin]
                              rw [hstep]
                              constructor
                              · intro h; simp at h
                              · intro h
                                rcases h.1 with h0 | ⟨nm2, hnm2, v2, hv2, h3⟩
                                · exact absurd h0 hpy
                                · rw [hnm] at hnm2; cases hnm2
                                  rw [hget] at hv2; cases hv2
                                  rcases h3 with h3 | ⟨t2, dt, ht, hdt, _⟩
                                  · exact absurd h3 hvd
                                  · rw [hin] at hdt; cases hdt
                          | ok dt =>
                              by_cases hass : ext.assignable t dt = true
                              · have hstep : compatLoop ext argNames nswd callargs
                                    (d :: rest) idx =
                                    compatLoop ext argNames nswd callargs rest (idx + 1) := by
                                  simp [compatLoop, hpy, hnm, hget, hvd, hto, hin, hass]
                                rw [hstep, ih (idx + 1)]
                                constructor
                                · intro h
                                  exact ⟨Or.inr ⟨nm, hnm, v, hget,
                                    Or.inr ⟨t, dt, hto, hin, hass⟩⟩, h⟩
                                · intro h; exact h.2
                              · have hass2 : ext.assignable t dt = false :=
                                  Bool.eq_false_iff.2 hass
                                have hstep : compatLoop ext argNames nswd callargs
                                    (d :: rest) idx = Except.ok false := by
                                  simp [compatLoop, hpy, hnm, hget, hvd, hto, hin, hass2]
                                rw [hstep]
                                constructor
                                · intro h; simp at h
                                · intro h
                                  rcases h.1 with h0 | ⟨nm2, hnm2, v2, hv2, h3⟩
                                  · exact absurd h0 hpy
                                  · rw [hnm] at hnm2; cases hnm2
                                    rw [hget] at hv2; cases hv2
                                    rcases h3 with h3 | ⟨t2, dt2, ht, hdt, ha⟩
                                    · exact absurd h3 hvd
                                    · rw [hto] at ht; cases ht
                                      rw [hin] at hdt; cases hdt
                                      exact absurd ha hass
                | star l =>
                    have hstep : compatLoop ext argNames nswd callargs (d :: rest) idx =
                        Except.error () := by
                      simp [compatLoop, hpy, hnm, hget]
                    rw [hstep]
                    constructor
                    · intro h; simp at h
                    · intro h
                      rcases h.1 with h0 | ⟨nm2, hnm2, v, hv, _⟩
                      · exact absurd h0 hpy
                      · rw [hnm] at hnm2; cases hnm2
                        rw [hget] at hv; cases hv
                | kwstar l =>
                    have hstep : compatLoop ext argNames nswd callargs (d :: rest) idx =
                        Except.error () := by
                      simp [compatLoop, hpy, hnm, hget]
                    rw [hstep]
                    constructor
                    · intro h; simp at h
                    · intro h
                      rcases h.1 with h0 | ⟨nm2, hnm2, v, hv, _⟩
                      · exact absurd h0 hpy
                      · rw [hnm] at hnm2; cases hnm2
                        rw [hget] at hv; cases hv

/-! ### Lemmas about the binding loop -/

theorem callargsLoop_preserves_one {Obj : Type u} (args : List Obj)
    (kwargs : List (String × Obj)) (defaults : List Obj) (nswd : Nat)
    (L : List String) (idx : Nat) (r res : List (String × CallArg Obj))
    (h : callargsLoop args kwargs defaults nswd L idx r = Except.ok res)
    (nm : String)
    (hnm : nm ∈ L ∨ ∃ v, dictGet r nm = some (CallArg.one v)) :
    ∃ v, dictGet res nm = some (CallArg.one v) := by
  induction L generalizing idx r with
  | nil =>
      simp only [callargsLoop] at h
      cases h
      rcases hnm with h0 | h0
      · cases h0
      · exact h0
  | cons specarg rest ih =>
      have transfer : ∀ (v0 : Obj),
          nm ∈ rest ∨ ∃ v, dictGet (dictSet r specarg (CallArg.one v0)) nm =
            some (CallArg.one v) := by
        intro v0
        by_cases hsp : nm = specarg
        · subst hsp
          exact Or.inr ⟨v0, dictGet_dictSet_self r nm (CallArg.one v0)⟩
        · rcases hnm with h0 | h0
          · rcases List.mem_cons.1 h0 with h1 | h1
            · exact absurd h1 hsp
            · exact Or.inl h1
          · rcases h0 with ⟨v, hv⟩
            refine Or.inr ⟨v, ?_⟩
            rw [dictGet_dictSet_ne r specarg nm (CallArg.one v0) (fun he => hsp he.symm)]
            exact hv
      simp only [callargsLoop] at h
      cases hargs : args[idx]? with
      | some v =>
          simp only [hargs] at h
          by_cases hdup : dictContains kwargs specarg
          · rw [if_pos hdup] at h; cases h
          · rw [if_neg hdup] at h
            exact ih (idx + 1) (dictSet r specarg (CallArg.one v)) h (transfer v)
      | none =>
          simp only [hargs] at h
          cases hkw : dictGet kwargs specarg with
          | some v =>
              simp only [hkw] at h
              exact ih (idx + 1) (dictSet r specarg (CallArg.one v)) h (transfer v)
          | none =>
              simp only [hkw] at h
              by_cases hw : nswd ≤ idx
              · rw [if_pos hw] at h
                cases hd : defaults[idx - nswd]? with
                | some d =>
                    simp only [hd] at h
                    exact ih (idx + 1) (dictSet r specarg (CallArg.one d)) h (transfer d)
                | none => simp only [hd] at h; cases h
              · rw [if_neg hw] at h; cases h

/-- Every declared name is bound to a single object in a successful binding,
provided the collector names do not shadow it. -/
theorem get_callargs_one {Obj : Type u} (argspec : ArgSpec Obj) (args : List Obj)
    (kwargs : List (String × Obj)) (ca : List (String × CallArg Obj))
    (h : get_callargs_for_argspec argspec args kwargs = Except.ok ca)
    (nm : String) (hmem : nm ∈ argspec.args)
    (hva : ∀ s, argspec.varargs = some s → s ≠ nm)
    (hkw : ∀ s, argspec.keywords = some s → s ≠ nm) :
    ∃ v, dictGet ca nm = some (CallArg.one v) := by
  simp only [get_callargs_for_argspec] at h
  by_cases htm : args.length > argspec.args.length ∧ argspec.varargs = none
  · rw [if_pos htm] at h; cases h
  · rw [if_neg htm] at h
    cases hloop : callargsLoop args kwargs argspec.defaults
        (argspec.args.length - argspec.defaults.length) argspec.args 0 [] with
    | error e => simp only [hloop] at h; cases h
    | ok result =>
        simp only [hloop] at h
        rcases callargsLoop_preserves_one args kwargs argspec.defaults
          (argspec.args.length - argspec.defaults.length) argspec.args 0 [] result
          hloop nm (Or.inl hmem) with ⟨v, hv⟩
        have hres1 : ∀ result1, (match argspec.varargs with
            | some vn => dictSet result vn (CallArg.star (args.drop argspec.args.length))
            | none => result) = result1 →
            dictGet result1 nm = some (CallArg.one v) := by
          intro result1 h1
          cases hvar : argspec.varargs with
          | some vn =>
              simp only [hvar] at h1
              rw [← h1, dictGet_dictSet_ne result vn nm _ (hva vn hvar)]
              exact hv
          | none => rw [hvar] at h1; rw [← h1]; exact hv
        cases hkwv : argspec.keywords with
        | some kn =>
            simp only [hkwv] at h
            cases h
            rw [dictGet_dictSet_ne _ kn nm _ (hkw kn hkwv)]
            exact ⟨v, hres1 _ rfl⟩
        | none =>
            simp only [hkwv] at h
            by_cases hu : (kwargs.filter
                (fun kv => !(dictContains result kv.1))).isEmpty
            · rw [if_pos hu] at h
              cases h
              exact ⟨v, hres1 _ rfl⟩
            · rw [if_neg hu] at h; cases h

/-- C3: for an argspec with defaults and a binding that succeeds,
`is_argspec_compatible_with_types` returns `true` iff for each defaulted name
whose bound object is not identical to the default and whose default is not
the `None` sentinel, the supplied type converts and satisfies
`supplied_type.is_assignable_from(infer_type(default))` (stated for
well-formed argspecs: defaults no longer than the name list and collector
names distinct from declared names). -/
theorem C3_compat_defaults_iff {Obj : Type u} [DecidableEq Obj] (ext : Ext Obj)
    (argspec : ArgSpec Obj) (args : List Obj) (kwargs : List (String × Obj))
    (ca : List (String × CallArg Obj))
    (hdef : argspec.defaults ≠ [])
    (hlen : argspec.defaults.length ≤ argspec.args.length)
    (hva : ∀ s, argspec.varargs = some s → s ∉ argspec.args)
    (hkw : ∀ s, argspec.keywords = some s → s ∉ argspec.args)
    (hbind : get_callargs_for_argspec argspec args kwargs = Except.ok ca) :
    is_argspec_compatible_with_types ext argspec args kwargs = Except.ok true ↔
      ∀ (k : Nat) (hk : k < argspec.defaults.length),
        argspec.defaults.get ⟨k, hk⟩ ≠ ext.pynone →
        ∀ nm v,
          argspec.args[argspec.args.length - argspec.defaults.length + k]? = some nm →
          dictGet ca nm = some (CallArg.one v) →
          v ≠ argspec.defaults.get ⟨k, hk⟩ →
          ∃ t dt, ext.to_type v = Except.ok t ∧
            ext.infer_type (argspec.defaults.get ⟨k, hk⟩) = Except.ok dt ∧
            ext.assignable t dt = true := by
  have hne : argspec.defaults.isEmpty = false := by
    cases hD : argspec.defaults with
    | nil => exact absurd hD hdef
    | cons a l => rfl
  have hstep : is_argspec_compatible_with_types ext argspec args kwargs =
      compatLoop ext argspec.args (argspec.args.length - argspec.defaults.length)
        ca argspec.defaults 0 := by
    simp [is_argspec_compatible_with_types, hbind, hne]
  rw [hstep, compatLoop_ok_true_iff]
  have hfacts : ∀ (k : Nat) (hk : k < argspec.defaults.length),
      ∃ (hlt : argspec.args.length - argspec.defaults.length + k < argspec.args.length),
        argspec.args[argspec.args.length - argspec.defaults.length + k]? =
          some (argspec.args.get ⟨argspec.args.length - argspec.defaults.length + k, hlt⟩) ∧
        ∃ v0, dictGet ca
          (argspec.args.get ⟨argspec.args.length - argspec.defaults.length + k, hlt⟩) =
            some (CallArg.one v0) := by
    intro k hk
    have hlt : argspec.args.length - argspec.defaults.length + k < argspec.args.length := by
      omega
    refine ⟨hlt, ?_, ?_⟩
    · rw [List.getElem?_eq_getElem hlt]
      rfl
    · set nm0 := argspec.args.get
        ⟨argspec.args.length - argspec.defaults.length + k, hlt⟩ with hnm0
      have hmem : nm0 ∈ argspec.args := by
        rw [hnm0]
        exact List.get_mem argspec.args _ _
      exact get_callargs_one argspec args kwargs ca hbind nm0
        (by exact hmem)
        (fun s hs he => (hva s hs) (he ▸ hmem))
        (fun s hs he => (hkw s hs) (he ▸ hmem))
  constructor
  · intro h k hk hd nm v h1 h2 hvd
    have hs := h k hk
    rcases hs with h0 | ⟨nm2, hnm2, v2, hv2, hcase⟩
    · exact absurd h0 hd
    · rw [Nat.zero_add] at hnm2
      rw [h1] at hnm2
      cases hnm2
      rw [h2] at hv2
      cases hv2
      rcases hcase with hcase | hcase
      · exact absurd hcase hvd
      · exact hcase
  · intro h k hk
    by_cases hd : argspec.defaults.get ⟨k, hk⟩ = ext.pynone
    · exact Or.inl hd
    · rcases hfacts k hk with ⟨hlt, hsome, v0, hv0⟩
      refine Or.inr ⟨argspec.args.get
        ⟨argspec.args.length - argspec.defaults.length + k, hlt⟩, ?_, v0, hv0, ?_⟩
      · rw [Nat.zero_add]; exact hsome
      · by_cases hvd : v0 = argspec.defaults.get ⟨k, hk⟩
        · exact Or.inl hvd
        · exact Or.inr (h k hk hd _ v0 hsome hv0 hvd)

/-- C3 witness: spec `[a, b]` with default `5` for `b`, explicit positional
types bound for both names, under the trivial type system. -/
theorem C3_compat_defaults_iff_witness :
    is_argspec_compatible_with_types ext0
      { args := ["a", "b"], varargs := none, keywords := none, defaults := [5] }
      [7, 9] [] = Except.ok true ↔
      ∀ (k : Nat) (hk : k < [(5 : Nat)].length),
        [(5 : Nat)].get ⟨k, hk⟩ ≠ ext0.pynone →
        ∀ nm v,
          (["a", "b"] : List String)[["a", "b"].length - [(5 : Nat)].length + k]? = some nm →
          dictGet [("a", CallArg.one (7 : Nat)), ("b", CallArg.one 9)] nm =
            some (CallArg.one v) →
          v ≠ [(5 : Nat)].get ⟨k, hk⟩ →
          ∃ t dt, ext0.to_type v = Except.ok t ∧
            ext0.infer_type ([(5 : Nat)].get ⟨k, hk⟩) = Except.ok dt ∧
            ext0.assignable t dt = true :=
  C3_compat_defaults_iff ext0
    { args := ["a", "b"], varargs := none, keywords := none, defaults := [5] }
    [7, 9] [] [("a", CallArg.one 7), ("b", CallArg.one 9)]
    (by decide) (by decide)
    (by intro s hs; cases hs) (by intro s hs; cases hs)
    (by decide)

/-! ### Adding a fresh keyword argument to a successful binding -/

/-- The pointwise relation between the old and new binding dictionaries is
preserved by identical updates at keys other than `n`. -/
theorem rel_dictSet {Obj : Type u} (r1 r2 : List (String × CallArg Obj))
    (n : String) (w : Obj)
    (hrel : ∀ nm, dictGet r2 nm =
      if nm = n then some (CallArg.one w) else dictGet r1 nm)
    (k : String) (hk : k ≠ n) (c : CallArg Obj) :
    ∀ nm, dictGet (dictSet r2 k c) nm =
      if nm = n then some (CallArg.one w) else dictGet (dictSet r1 k c) nm := by
  intro nm
  by_cases hnm : nm = k
  · subst hnm
    rw [dictGet_dictSet_self, if_neg hk, dictGet_dictSet_self]
  · rw [dictGet_dictSet_ne r2 k nm c (fun h => hnm h.symm),
      dictGet_dictSet_ne r1 k nm c (fun h => hnm h.symm), hrel nm]

/-- The binding loop ignores a trailing fresh keyword entry whose key does
not occur among the remaining declared names. -/
theorem callargsLoop_kwargs_irrelevant {Obj : Type u} (args : List Obj)
    (kwargs : List (String × Obj)) (n : String) (w : Obj) (defaults : List Obj)
    (nswd : Nat) (L : List String) (hnin : n ∉ L) :
    ∀ (idx : Nat) (r : List (String × CallArg Obj)),
      callargsLoop args (kwargs ++ [(n, w)]) defaults nswd L idx r =
        callargsLoop args kwargs defaults nswd L idx r := by
  induction L with
  | nil => intro idx r; rfl
  | cons specarg rest ih =>
      intro idx r
      have hsp : n ≠ specarg := fun h => hnin (h ▸ List.mem_cons_self specarg rest)
      have hrest : n ∉ rest := fun h => hnin (List.mem_cons_of_mem specarg h)
      have hget : dictGet (kwargs ++ [(n, w)]) specarg = dictGet kwargs specarg :=
        dictGet_append_ne kwargs n specarg w hsp
      have hcont : dictContains (kwargs ++ [(n, w)]) specarg =
          dictContains kwargs specarg := by
        simp [dictContains, hget]
      simp only [callargsLoop]
      cases hargs : args[idx]? with
      | some v => simp only [hcont, hget, ih hrest]
      | none => simp only [hcont, hget, ih hrest]

/-- The binding loop splits across an append of the declared-name list. -/
theorem callargsLoop_append {Obj : Type u} (args : List Obj)
    (kwargs : List (String × Obj)) (defaults : List Obj) (nswd : Nat)
    (a b : List String) :
    ∀ (idx : Nat) (r : List (String × CallArg Obj)),
      callargsLoop args kwargs defaults nswd (a ++ b) idx r =
        (match callargsLoop args kwargs defaults nswd a idx r with
         | Except.error e => Except.error e
         | Except.ok r1 => callargsLoop args kwargs defaults nswd b (idx + a.length) r1) := by
  induction a with
  | nil => intro idx r; rfl
  | cons specarg rest ih =>
      intro idx r
      have harith : idx + (rest.length + 1) = idx + 1 + rest.length := by omega
      simp only [List.cons_append, callargsLoop, List.length_cons, harith]
      cases hargs : args[idx]? with
      | some v =>
          by_cases hdup : dictContains kwargs specarg
          · simp [hdup]
          · simp only [hdup, Bool.false_eq_true, if_false]
            exact ih (idx + 1) (dictSet r specarg (CallArg.one v))
      | none =>
          cases hkw : dictGet kwargs specarg with
          | some v => exact ih (idx + 1) (dictSet r specarg (CallArg.one v))
          | none =>
              by_cases hw : nswd ≤ idx
              · simp only [hw, if_pos]
                cases hd : defaults[idx - nswd]? with
                | some d => exact ih (idx + 1) (dictSet r specarg (CallArg.one d))
                | none => rfl
              · simp [hw]

/-- Running the binding loop over names avoiding `n`, with kwargs extended by
the fresh pair `(n, w)` and an accumulator related to the old one, yields a
result related in the same way. -/
theorem callargsLoop_add_kwarg_post {Obj : Type u} (args : List Obj)
    (kwargs : List (String × Obj)) (n : String) (w : Obj) (defaults : List Obj)
    (nswd : Nat) (L : List String) (hnin : n ∉ L) :
    ∀ (idx : Nat) (r1 r2 res1 : List (String × CallArg Obj)),
      (∀ nm, dictGet r2 nm =
        if nm = n then some (CallArg.one w) else dictGet r1 nm) →
      callargsLoop args kwargs defaults nswd L idx r1 = Except.ok res1 →
      ∃ res2, callargsLoop args (kwargs ++ [(n, w)]) defaults nswd L idx r2 =
          Except.ok res2 ∧
        ∀ nm, dictGet res2 nm =
          if nm = n then some (CallArg.one w) else dictGet res1 nm := by
  induction L with
  | nil =>
      intro idx r1 r2 res1 hrel h
      simp only [callargsLoop] at h
      cases h
      exact ⟨r2, rfl, hrel⟩
  | cons specarg rest ih =>
      intro idx r1 r2 res1 hrel h
      have hsp : n ≠ specarg := fun hcontra => hnin (hcontra ▸ List.mem_cons_self specarg rest)
      have hrest : n ∉ rest := fun hm => hnin (List.mem_cons_of_mem specarg hm)
      have hget : dictGet (kwargs ++ [(n, w)]) specarg = dictGet kwargs specarg :=
        dictGet_append_ne kwargs n specarg w hsp
      have hcont : dictContains (kwargs ++ [(n, w)]) specarg =
          dictContains kwargs specarg := by
        simp [dictContains, hget]
      simp only [callargsLoop] at h ⊢
      cases hargs : args[idx]? with
      | some v =>
          simp only [hargs] at h ⊢
          by_cases hdup : dictContains kwargs specarg
          · rw [if_pos hdup] at h; cases h
          · rw [if_neg hdup] at h
            rw [hcont, if_neg hdup]
            exact ih hrest (idx + 1) (dictSet r1 specarg (CallArg.one v))
              (dictSet r2 specarg (CallArg.one v)) res1
              (rel_dictSet r1 r2 n w hrel specarg (fun hcontra => hsp hcontra.symm) _) h
      | none =>
          simp only [hargs] at h ⊢
          rw [hget]
          cases hkwg : dictGet kwargs specarg with
          | some v =>
              simp only [hkwg] at h ⊢
              exact ih hrest (idx + 1) (dictSet r1 specarg (CallArg.one v))
                (dictSet r2 specarg (CallArg.one v)) res1
                (rel_dictSet r1 r2 n w hrel specarg (fun hcontra => hsp hcontra.symm) _) h
          | none =>
              simp only [hkwg] at h ⊢
              by_cases hw : nswd ≤ idx
              · rw [if_pos hw] at h
                rw [if_pos hw]
                cases hd : defaults[idx - nswd]? with
                | some d =>
                    simp only [hd] at h ⊢
                    exact ih hrest (idx + 1) (dictSet r1 specarg (CallArg.one d))
                      (dictSet r2 specarg (CallArg.one d)) res1
                      (rel_dictSet r1 r2 n w hrel specarg
                        (fun hcontra => hsp hcontra.symm) _) h
                | none => simp only [hd] at h; cases h
              · rw [if_neg hw] at h; cases h

/-- Adding a keyword argument that covers a defaulted declared name not
already bound (positionally or by keyword) turns a successful binding into a
successful binding that differs only at that name, which is now bound to the
new value instead of its default. -/
theorem get_callargs_add_kwarg {Obj : Type u} (argspec : ArgSpec Obj) (args : List Obj)
    (kwargs : List (String × Obj)) (ca : List (String × CallArg Obj))
    (n : String) (w : Obj) (j : Nat) (hj : j < argspec.args.length)
    (hname : argspec.args.get ⟨j, hj⟩ = n)
    (hnodup : argspec.args.Nodup)
    (hva : ∀ s, argspec.varargs = some s → s ∉ argspec.args)
    (hkws : ∀ s, argspec.keywords = some s → s ∉ argspec.args)
    (hpos : args.length ≤ j)
    (hdefw : argspec.args.length - argspec.defaults.length ≤ j)
    (hnew : dictGet kwargs n = none)
    (hbind : get_callargs_for_argspec argspec args kwargs = Except.ok ca) :
    ∃ ca', get_callargs_for_argspec argspec args (kwargs ++ [(n, w)]) = Except.ok ca' ∧
      ∀ nm, dictGet ca' nm =
        if nm = n then some (CallArg.one w) else dictGet ca nm := by
  have hmem_n : n ∈ argspec.args := by
    rw [← hname]; exact List.get_mem argspec.args _ _
  have hsplit : argspec.args = argspec.args.take j ++ n :: argspec.args.drop (j + 1) := by
    conv_lhs => rw [← List.take_append_drop j argspec.args]
    rw [List.drop_eq_getElem_cons hj, ← List.get_eq_getElem argspec.args ⟨j, hj⟩, hname]
  have hpre_len : (argspec.args.take j).length = j := by
    rw [List.length_take]; omega
  have hnd2 : (argspec.args.take j ++ n :: argspec.args.drop (j + 1)).Nodup :=
    hsplit ▸ hnodup
  rcases List.nodup_append.1 hnd2 with ⟨hnd_pre, hnd_cons, hdisj⟩
  have hn_pre : n ∉ argspec.args.take j := fun hm => hdisj hm (List.mem_cons_self _ _)
  have hn_post : n ∉ argspec.args.drop (j + 1) := (List.nodup_cons.1 hnd_cons).1
  simp only [get_callargs_for_argspec] at hbind ⊢
  by_cases htm : args.length > argspec.args.length ∧ argspec.varargs = none
  · rw [if_pos htm] at hbind; cases hbind
  · rw [if_neg htm] at hbind
    rw [if_neg htm]
    set nswd := argspec.args.length - argspec.defaults.length with hnswd
    have hdlt : j - nswd < argspec.defaults.length := by omega
    have hdval : argspec.defaults[j - nswd]? =
        some (argspec.defaults.get ⟨j - nswd, hdlt⟩) := by
      rw [List.getElem?_eq_getElem hdlt, List.get_eq_getElem]
    set d := argspec.defaults.get ⟨j - nswd, hdlt⟩ with hd
    have hargsj : args[j]? = none := List.getElem?_eq_none hpos
    have hloop_eq : callargsLoop args kwargs argspec.defaults nswd argspec.args 0 [] =
        (match callargsLoop args kwargs argspec.defaults nswd
            (argspec.args.take j) 0 [] with
         | Except.error e => Except.error e
         | Except.ok r1 => callargsLoop args kwargs argspec.defaults nswd
             (n :: argspec.args.drop (j + 1)) (0 + (argspec.args.take j).length) r1) := by
      conv_lhs => rw [hsplit]
      exact callargsLoop_append args kwargs argspec.defaults nswd _ _ 0 []
    rw [hloop_eq] at hbind
    cases hp1 : callargsLoop args kwargs argspec.defaults nswd
        (argspec.args.take j) 0 [] with
    | error e => simp only [hp1] at hbind; cases hbind
    | ok r1 =>
        simp only [hp1] at hbind
        have hidx : 0 + (argspec.args.take j).length = j := by rw [hpre_len]; omega
        rw [hidx] at hbind
        have hstep_old : callargsLoop args kwargs argspec.defaults nswd
            (n :: argspec.args.drop (j + 1)) j r1 =
            callargsLoop args kwargs argspec.defaults nswd (argspec.args.drop (j + 1))
              (j + 1) (dictSet r1 n (CallArg.one d)) := by
          simp only [callargsLoop, hargsj, hnew, hdval]
          rw [if_pos (show nswd ≤ j from hdefw)]
        rw [hstep_old] at hbind
        cases hp2 : callargsLoop args kwargs argspec.defaults nswd
            (argspec.args.drop (j + 1)) (j + 1) (dictSet r1 n (CallArg.one d)) with
        | error e => simp only [hp2] at hbind; cases hbind
        | ok result =>
            simp only [hp2] at hbind
            have hrel0 : ∀ nm, dictGet (dictSet r1 n (CallArg.one w)) nm =
                if nm = n then some (CallArg.one w)
                else dictGet (dictSet r1 n (CallArg.one d)) nm := by
              intro nm
              by_cases hnm : nm = n
              · subst hnm; rw [dictGet_dictSet_self, if_pos rfl]
              · rw [dictGet_dictSet_ne _ n nm _ (fun hcg => hnm hcg.symm),
                  dictGet_dictSet_ne _ n nm _ (fun hcg => hnm hcg.symm), if_neg hnm]
            rcases callargsLoop_add_kwarg_post args kwargs n w argspec.defaults nswd
              (argspec.args.drop (j + 1)) hn_post (j + 1)
              (dictSet r1 n (CallArg.one d)) (dictSet r1 n (CallArg.one w)) result
              hrel0 hp2 with ⟨result2, hp2n, hrelres⟩
            have hloop_new : callargsLoop args (kwargs ++ [(n, w)]) argspec.defaults
                nswd argspec.args 0 [] = Except.ok result2 := by
              conv_lhs => rw [hsplit]
              rw [callargsLoop_append args (kwargs ++ [(n, w)]) argspec.defaults
                nswd _ _ 0 [],
                callargsLoop_kwargs_irrelevant args kwargs n w argspec.defaults
                  nswd _ hn_pre 0 []]
              simp only [hp1, hidx]
              simp only [callargsLoop, hargsj, dictGet_append_self kwargs n w hnew]
              exact hp2n
            simp only [hloop_new]
            have hcont_n : dictContains result2 n = true := by
              have := hrelres n
              rw [if_pos rfl] at this
              simp [dictContains, this]
            have hunused : (kwargs ++ [(n, w)]).filter
                (fun kv => !(dictContains result2 kv.1)) =
                kwargs.filter (fun kv => !(dictContains result kv.1)) := by
              rw [List.filter_append]
              have h1 : ([(n, w)] : List (String × Obj)).filter
                  (fun kv => !(dictContains result2 kv.1)) = [] := by
                simp [List.filter, hcont_n]
              have h2 : kwargs.filter (fun kv => !(dictContains result2 kv.1)) =
                  kwargs.filter (fun kv => !(dictContains result kv.1)) := by
                apply List.filter_congr
                intro kv hkv
                have hkne : kv.1 ≠ n := forall_ne_of_dictGet_none kwargs n hnew kv hkv
                have := hrelres kv.1
                rw [if_neg hkne] at this
                simp [dictContains, this]
              rw [h1, h2, List.append_nil]
            rw [hunused]
            cases hvar : argspec.varargs with
            | some vn =>
                rw [hvar] at hbind
                have hvn : vn ≠ n := fun hcg => (hva vn hvar) (hcg ▸ hmem_n)
                have hrel1 := rel_dictSet result result2 n w hrelres vn hvn
                  (CallArg.star (args.drop argspec.args.length))
                cases hkwv : argspec.keywords with
                | some kn =>
                    rw [hkwv] at hbind
                    cases hbind
                    have hkn : kn ≠ n := fun hcg => (hkws kn hkwv) (hcg ▸ hmem_n)
                    exact ⟨_, rfl, rel_dictSet _ _ n w hrel1 kn hkn _⟩
                | none =>
                    rw [hkwv] at hbind
                    by_cases hemp : (kwargs.filter
                        (fun kv => !(dictContains result kv.1))).isEmpty
                    · rw [if_pos hemp] at hbind
                      cases hbind
                      rw [if_pos hemp]
                      exact ⟨_, rfl, hrel1⟩
                    · rw [if_neg hemp] at hbind; cases hbind
            | none =>
                rw [hvar] at hbind
                cases hkwv : argspec.keywords with
                | some kn =>
                    rw [hkwv] at hbind
                    cases hbind
                    have hkn : kn ≠ n := fun hcg => (hkws kn hkwv) (hcg ▸ hmem_n)
                    exact ⟨_, rfl, rel_dictSet _ _ n w hrelres kn hkn _⟩
                | none =>
                    rw [hkwv] at hbind
                    by_cases hemp : (kwargs.filter
                        (fun kv => !(dictContains result kv.1))).isEmpty
                    · rw [if_pos hemp] at hbind
                      cases hbind
                      rw [if_pos hemp]
                      exact ⟨_, rfl, hrelres⟩
                    · rw [if_neg hemp] at hbind; cases hbind

/-- C7: when a binding with no excess positional arguments is compatible,
adding one keyword argument that covers a defaulted declared name not already
bound, whose type converts and is assignable from the inferred type of that
name's default, keeps `is_argspec_compatible_with_types` true (stated for
well-formed argspecs: distinct declared names, defaults no longer than the
name list, collector names distinct from declared names). -/
theorem C7_compat_monotone {Obj : Type u} [DecidableEq Obj] (ext : Ext Obj)
    (argspec : ArgSpec Obj) (args : List Obj) (kwargs : List (String × Obj))
    (n : String) (w : Obj) (j : Nat) (hj : j < argspec.args.length)
    (hname : argspec.args.get ⟨j, hj⟩ = n)
    (hnodup : argspec.args.Nodup)
    (hlen : argspec.defaults.length ≤ argspec.args.length)
    (hva : ∀ s, argspec.varargs = some s → s ∉ argspec.args)
    (hkws : ∀ s, argspec.keywords = some s → s ∉ argspec.args)
    (hpos : args.length ≤ j)
    (hdefw : argspec.args.length - argspec.defaults.length ≤ j)
    (hnew : dictGet kwargs n = none)
    (hexcess : args.length ≤ argspec.args.length)
    (htype : ∀ (hd : j - (argspec.args.length - argspec.defaults.length) <
        argspec.defaults.length),
      ∃ t dt, ext.to_type w = Except.ok t ∧
        ext.infer_type (argspec.defaults.get
          ⟨j - (argspec.args.length - argspec.defaults.length), hd⟩) = Except.ok dt ∧
        ext.assignable t dt = true)
    (hold : is_argspec_compatible_with_types ext argspec args kwargs = Except.ok true) :
    is_argspec_compatible_with_types ext argspec args (kwargs ++ [(n, w)]) =
      Except.ok true := by
  have hdlt : j - (argspec.args.length - argspec.defaults.length) <
      argspec.defaults.length := by omega
  have hne : argspec.defaults.isEmpty = false := by
    cases hD : argspec.defaults with
    | nil => rw [hD] at hdlt; simp at hdlt
    | cons a l => rfl
  cases hb : get_callargs_for_argspec argspec args kwargs with
  | error e =>
      rw [is_argspec_compatible_with_types, hb] at hold
      cases hold
  | ok ca =>
      rcases get_callargs_add_kwarg argspec args kwargs ca n w j hj hname hnodup
        hva hkws hpos hdefw hnew hb with ⟨ca2, hb2, hrel⟩
      have hold2 : compatLoop ext argspec.args
          (argspec.args.length - argspec.defaults.length) ca argspec.defaults 0 =
          Except.ok true := by
        rw [is_argspec_compatible_with_types, hb] at hold
        simpa [hne] using hold
      have hgoal : is_argspec_compatible_with_types ext argspec args
          (kwargs ++ [(n, w)]) = compatLoop ext argspec.args
            (argspec.args.length - argspec.defaults.length) ca2 argspec.defaults 0 := by
        rw [is_argspec_compatible_with_types, hb2]
        simp [hne]
      rw [hgoal, compatLoop_ok_true_iff]
      rw [compatLoop_ok_true_iff] at hold2
      intro k hk
      by_cases hpy : argspec.defaults.get ⟨k, hk⟩ = ext.pynone
      · exact Or.inl hpy
      · rcases hold2 k hk with h0 | ⟨nm, hnm, v, hv, hcase⟩
        · exact absurd h0 hpy
        · by_cases hkn : nm = n
          · subst hkn
            have hqlt : argspec.args.length - argspec.defaults.length + (0 + k) <
                argspec.args.length := by omega
            have hget_q : argspec.args.get
                ⟨argspec.args.length - argspec.defaults.length + (0 + k), hqlt⟩ = nm := by
              rcases List.getElem?_eq_some_iff.1 hnm with ⟨hq, hqe⟩
              rw [List.get_eq_getElem]
              exact hqe
            have hkj : argspec.args.length - argspec.defaults.length + (0 + k) = j := by
              have := List.Nodup.get_inj_iff hnodup
                (i := ⟨argspec.args.length - argspec.defaults.length + (0 + k), hqlt⟩)
                (j := ⟨j, hj⟩)
              have heq : argspec.args.get
                  ⟨argspec.args.length - argspec.defaults.length + (0 + k), hqlt⟩ =
                  argspec.args.get ⟨j, hj⟩ := by rw [hget_q, hname]
              have := this.1 heq
              exact congrArg Fin.val this
            have hkval : k = j - (argspec.args.length - argspec.defaults.length) := by
              omega
            refine Or.inr ⟨nm, hnm, w, ?_, ?_⟩
            · rw [hrel nm, if_pos rfl]
            · refine Or.inr ?_
              rcases htype hdlt with ⟨t, dt, ht, hdt, ha⟩
              refine ⟨t, dt, ht, ?_, ha⟩
              have hgd : argspec.defaults.get ⟨k, hk⟩ = argspec.defaults.get
                  ⟨j - (argspec.args.length - argspec.defaults.length), hdlt⟩ := by
                congr 1
                exact Fin.ext hkval
              rw [hgd]
              exact hdt
          · refine Or.inr ⟨nm, hnm, v, ?_, hcase⟩
            rw [hrel nm, if_neg hkn]
            exact hv

/-- C7 witness: spec `[a, b]` with default `5` for `b`; from the compatible
call with one positional type, adding the keyword `b` with a compatible type
stays compatible. -/
theorem C7_compat_monotone_witness :
    is_argspec_compatible_with_types ext0
      { args := ["a", "b"], varargs := none, keywords := none, defaults := [5] }
      [9] ([] ++ [("b", 7)]) = Except.ok true :=
  C7_compat_monotone ext0
    { args := ["a", "b"], varargs := none, keywords := none, defaults := [5] }
    [9] [] "b" 7 1 (by decide) (by decide) (by decide) (by decide)
    (by intro s hs; cases hs) (by intro s hs; cases hs)
    (by decide) (by decide) (by decide) (by decide)
    (fun hd => ⟨7, 5, rfl, rfl, rfl⟩)
    (by decide)

end FuncUtils
